import Mathlib

/-!
Verification development for the AR-COLORIZE real-time wall repainting
system (ar_colorize.py).  The per-frame vision pipeline is shallowly
embedded: frames are row-major lists of 8-bit BGR pixel triples, masks are
row-major lists of 8-bit values, and the OpenCV primitives used by the
source (cvtColor, Canny, threshold, morphologyEx, dilate, bitwise_and,
bitwise_not, addWeighted, findContours, drawContours) are given executable
semantics.  Machine integers are modelled as Nat/Int, the blending weight
alpha as an exact rational.
-/

/-! ## Python hex-string parsing (ARColorize.hex_to_bgr, set_color) -/

/-- Value of an ASCII hex digit, given its code point: 0-9, a-f, A-F.
This models the digits accepted by the Python builtin int(s, 16)
(restricted to ASCII, which covers every input the claims are about). -/
def hexValN (n : Nat) : Option Nat :=
  if 48 ≤ n ∧ n ≤ 57 then some (n - 48)
  else if 97 ≤ n ∧ n ≤ 102 then some (n - 87)
  else if 65 ≤ n ∧ n ≤ 70 then some (n - 55)
  else none

/-- Hex-digit value of a character. -/
def hexVal (c : Char) : Option Nat := hexValN c.toNat

/-- ASCII whitespace stripped by the Python builtin int() before parsing:
space, tab, newline, carriage return, vertical tab, form feed. -/
def isPySpace (c : Char) : Bool :=
  c.toNat == 32 || c.toNat == 9 || c.toNat == 10 ||
  c.toNat == 13 || c.toNat == 11 || c.toNat == 12

/-- Leading and trailing whitespace stripping performed by int(). -/
def pyStripWs (l : List Char) : List Char :=
  ((l.dropWhile isPySpace).reverse.dropWhile isPySpace).reverse

/-- Digit scanner of int(s, 16) after the first digit: a single underscore
(code 95) is allowed between digits, never doubled or trailing. -/
def pyDigitsGo : List Char → Nat → Option Nat
  | [], acc => some acc
  | c :: rest, acc =>
    if c.toNat = 95 then
      match rest with
      | [] => none
      | d :: rest2 =>
        match hexVal d with
        | none => none
        | some v => pyDigitsGo rest2 (16 * acc + v)
    else
      match hexVal c with
      | none => none
      | some v => pyDigitsGo rest (16 * acc + v)

/-- Digit part of int(s, 16): nonempty, must start with a digit. -/
def pyDigits : List Char → Option Nat
  | [] => none
  | c :: rest =>
    match hexVal c with
    | none => none
    | some v => pyDigitsGo rest v

/-- Optional 0x / 0X prefix accepted by int(s, 16), together with the
single underscore that may directly follow it. -/
def pyStrip0x (l : List Char) : List Char :=
  match l with
  | z :: x :: rest =>
    if z.toNat = 48 ∧ (x.toNat = 120 ∨ x.toNat = 88) then
      match rest with
      | u :: rest2 => if u.toNat = 95 then rest2 else rest
      | [] => []
    else l
  | _ => l

/-- Optional sign accepted by int(): + is 43, - is 45. -/
def pySign (l : List Char) : Int × List Char :=
  match l with
  | c :: rest =>
    if c.toNat = 43 then (1, rest)
    else if c.toNat = 45 then (-1, rest)
    else (1, l)
  | [] => (1, [])

/-- The Python builtin int(s, 16): strip whitespace, optional sign,
optional 0x prefix, then hex digits; None models the ValueError raised on
malformed input. -/
def pyIntBase16 (l : List Char) : Option Int :=
  let t := pyStripWs l
  let st := pySign t
  let t2 := pyStrip0x st.2
  (pyDigits t2).map (fun n => st.1 * (n : Int))

/-- Python slicing s[a:b] on a list (indices clamp to the length). -/
def pySlice (l : List Char) (a b : Nat) : List Char := (l.take b).drop a

/-- Python str.lstrip applied with the argument "#": every leading # (code
35) is removed, not just one. -/
def hashStrip (s : List Char) : List Char := s.dropWhile (fun c => c.toNat = 35)

/-- ARColorize.hex_to_bgr: strip leading # characters, parse s[0:2], s[2:4],
s[4:6] with int(-, 16) as (r, g, b), and return the reversed triple
(b, g, r).  None models the ValueError raised by int() on a malformed
slice, which propagates out of the method. -/
def hex_to_bgr (s : List Char) : Option (Int × Int × Int) :=
  let h := hashStrip s
  match pyIntBase16 (pySlice h 0 2), pyIntBase16 (pySlice h 2 4),
        pyIntBase16 (pySlice h 4 6) with
  | some r, some g, some b => some (b, g, r)
  | _, _, _ => none

/-- Mutable state of the ARColorize object that the per-frame pipeline
reads: the currently selected BGR paint color.  The camera handle and the
running flag of the source are device state outside the embedded core. -/
structure ARColorize where
  selected_color : Int × Int × Int
  deriving DecidableEq

/-- The constructor default: white (255, 255, 255) in BGR. -/
def ARColorize.init : ARColorize := ⟨(255, 255, 255)⟩

/-- ARColorize.set_color: parse the hex string and overwrite
selected_color.  The Bool records whether the call returned normally;
when hex_to_bgr raises (None), the exception propagates before the
assignment, so the returned state is the unchanged receiver. -/
def set_color (st : ARColorize) (hex_color : List Char) : ARColorize × Bool :=
  match hex_to_bgr hex_color with
  | some c => (⟨c⟩, true)
  | none => (st, false)

/-- Modelled from the spec: the repository has no triple-to-hex converter,
but the spec requires the hex and triple representations to round-trip
losslessly, so the inverse direction is modelled from its words: a
6-hex-digit string in RRGGBB order (uppercase), one 2-digit pair per
channel. -/
def hexDigit (n : Nat) : Char :=
  if n < 10 then Char.ofNat (48 + n) else Char.ofNat (55 + n)

/-- Modelled from the spec: two-digit uppercase hex rendering of one
8-bit channel intensity. -/
def hexPair (n : Int) : List Char :=
  [hexDigit (n.toNat % 256 / 16), hexDigit (n.toNat % 16)]

/-- Modelled from the spec: triple-to-hex conversion, inverse of
hex_to_bgr.  The BGR triple is rendered in the red-green-blue order of
the string representation. -/
def bgr_to_hex : Int × Int × Int → List Char
  | (b, g, r) => hexPair r ++ hexPair g ++ hexPair b

/-- Uppercase normalization of one ASCII character, for the spec's
case-insensitive comparison of hex strings. -/
def upChar (c : Char) : Char :=
  if 97 ≤ c.toNat ∧ c.toNat ≤ 122 then Char.ofNat (c.toNat - 32) else c

/-- The validity predicate of the spec: exactly 6 hex digits after
stripping one optional leading #. -/
def sixHexAfterHash (l : List Char) : Bool :=
  let t := match l with
    | c :: rest => if c.toNat = 35 then rest else l
    | [] => []
  t.length == 6 && t.all (fun c => (hexVal c).isSome)

/-! ## Images: single-channel masks and 3-channel BGR frames -/

/-- A single-channel raster image (numpy uint8 2-d array): row-major list
of rows, each value meant to be in 0..255. -/
structure Img where
  rows : List (List Nat)
  deriving DecidableEq

def Img.height (m : Img) : Nat := m.rows.length

def Img.width (m : Img) : Nat := (m.rows.headD []).length

/-- Pixel access with the row-major default 0 outside the raster. -/
def Img.get (m : Img) (i j : Nat) : Nat := (m.rows.getD i []).getD j 0

/-- Build an image from a pixel function. -/
def Img.ofFn (h w : Nat) (f : Nat → Nat → Nat) : Img :=
  ⟨(List.range h).map (fun i => (List.range w).map (fun j => f i j))⟩

/-- Border-replicating access (OpenCV BORDER_REPLICATE, used by Sobel
inside Canny): coordinates clamp to the raster. -/
def Img.getClamp (m : Img) (i j : Int) : Nat :=
  m.get (Int.toNat (min (max i 0) ((m.height : Int) - 1)))
        (Int.toNat (min (max j 0) ((m.width : Int) - 1)))

/-- Zero-border access (the gradient-magnitude buffer of Canny is padded
with zero rows and columns). -/
def Img.getZ (m : Img) (i j : Int) : Nat :=
  if 0 ≤ i ∧ i < (m.height : Int) ∧ 0 ≤ j ∧ j < (m.width : Int) then
    m.get i.toNat j.toNat
  else 0

/-- A 3-channel 8-bit BGR frame: row-major list of rows of (b, g, r)
triples. -/
structure CImg where
  rows : List (List (Nat × Nat × Nat))
  deriving DecidableEq

def CImg.height (f : CImg) : Nat := f.rows.length

def CImg.width (f : CImg) : Nat := (f.rows.headD []).length

def CImg.get (f : CImg) (i j : Nat) : Nat × Nat × Nat :=
  (f.rows.getD i []).getD j (0, 0, 0)

def CImg.ofFn (h w : Nat) (f : Nat → Nat → Nat × Nat × Nat) : CImg :=
  ⟨(List.range h).map (fun i => (List.range w).map (fun j => f i j))⟩

/-! ## OpenCV primitives used by detect_wall -/

/-- cv2.cvtColor(frame, COLOR_BGR2GRAY): fixed-point luma
(4899 R + 9617 G + 1868 B + 2^13) >> 14.  (The HSV conversion computed on
the same line of the source is never used and is not modelled.) -/
def grayOf (frame : CImg) : Img :=
  Img.ofFn frame.height frame.width (fun i j =>
    let p := frame.get i j
    (4899 * p.2.2 + 9617 * p.2.1 + 1868 * p.1 + 8192) / 16384)

/-- Horizontal 3x3 Sobel derivative at (i, j), replicated border. -/
def sobelDx (g : Img) (i j : Int) : Int :=
  ((g.getClamp (i - 1) (j + 1) : Int) + 2 * g.getClamp i (j + 1) +
      g.getClamp (i + 1) (j + 1)) -
    ((g.getClamp (i - 1) (j - 1) : Int) + 2 * g.getClamp i (j - 1) +
      g.getClamp (i + 1) (j - 1))

/-- Vertical 3x3 Sobel derivative at (i, j), replicated border. -/
def sobelDy (g : Img) (i j : Int) : Int :=
  ((g.getClamp (i + 1) (j - 1) : Int) + 2 * g.getClamp (i + 1) j +
      g.getClamp (i + 1) (j + 1)) -
    ((g.getClamp (i - 1) (j - 1) : Int) + 2 * g.getClamp (i - 1) j +
      g.getClamp (i - 1) (j + 1))

/-- L1 gradient magnitude buffer of cv2.Canny (default L2gradient=False):
abs(dx) + abs(dy). -/
def cannyMag (g : Img) : Img :=
  Img.ofFn g.height g.width (fun i j =>
    (sobelDx g i j).natAbs + (sobelDy g i j).natAbs)

/-- Non-maximum suppression pass of cv2.Canny, producing the OpenCV
edge-candidate codes: 0 = weak candidate, 1 = not an edge, 2 = strong
edge.  The gradient direction is quantized with the fixed-point tangent
thresholds TG22 = 13573 = tan(22.5 degrees) << 15 used by OpenCV, and the
magnitude comparisons (strict towards one neighbor, non-strict towards
the other) follow the OpenCV scalar loop. -/
def cannyMap (g : Img) (low high : Nat) : Img :=
  let mag := cannyMag g
  Img.ofFn g.height g.width (fun i0 j0 =>
    let i : Int := i0
    let j : Int := j0
    let dx := sobelDx g i j
    let dy := sobelDy g i j
    let m := dx.natAbs + dy.natAbs
    if m ≤ low then 1 else
    let x := dx.natAbs
    let y := dy.natAbs * 32768
    let tg22x := x * 13573
    let pass :=
      if y < tg22x then
        decide (mag.getZ i (j - 1) < m) && decide (mag.getZ i (j + 1) ≤ m)
      else if tg22x + x * 65536 < y then
        decide (mag.getZ (i - 1) j < m) && decide (mag.getZ (i + 1) j ≤ m)
      else
        let s : Int := if decide (dx < 0) != decide (dy < 0) then -1 else 1
        decide (mag.getZ (i - 1) (j - s) < m) &&
          decide (mag.getZ (i + 1) (j + s) < m)
    if pass then (if high < m then 2 else 0) else 1)

/-- The 8-neighborhood used by the Canny hysteresis flood fill. -/
def neigh8 : List (Int × Int) :=
  [(-1, -1), (-1, 0), (-1, 1), (0, -1), (0, 1), (1, -1), (1, 0), (1, 1)]

/-- One promotion step of Canny hysteresis: a weak candidate 8-adjacent
to a strong edge becomes strong. -/
def hystStep (c : Img) : Img :=
  Img.ofFn c.height c.width (fun i j =>
    if c.get i j == 0 &&
        neigh8.any (fun d => c.getZ ((i : Int) + d.1) ((j : Int) + d.2) == 2)
      then 2
      else c.get i j)

/-- Canny hysteresis as a saturating iteration: height * width promotion
steps reach the fixpoint of the flood fill from strong edges. -/
def hysteresis (c : Img) : Img := hystStep^[c.height * c.width] c

/-- cv2.Canny(gray, low, high) with the default 3x3 aperture and L1
gradient: NMS codes, hysteresis, then 255 for strong edges and 0
elsewhere. -/
def canny (g : Img) (low high : Nat) : Img :=
  let hmap := hysteresis (cannyMap g low high)
  Img.ofFn g.height g.width (fun i j => if hmap.get i j = 2 then 255 else 0)

/-- cv2.threshold(gray, 100, 255, THRESH_BINARY): 255 where the value
strictly exceeds 100, else 0. -/
def threshold100 (g : Img) : Img :=
  Img.ofFn g.height g.width (fun i j => if 100 < g.get i j then 255 else 0)

/-- Offsets of the 5x5 all-ones structuring element np.ones((5,5)) with
its default center anchor. -/
def k5 : List (Int × Int) :=
  ([-2, -1, 0, 1, 2] : List Int).flatMap
    (fun a => ([-2, -1, 0, 1, 2] : List Int).map (fun b => (a, b)))

/-- Values of the raster under the structuring element at (i, j),
restricted to in-range coordinates (OpenCV morphology with its default
border value ignores out-of-range positions: -inf for dilate, +inf for
erode). -/
def Img.neighVals (m : Img) (off : List (Int × Int)) (i j : Nat) : List Nat :=
  off.filterMap (fun d =>
    let a := (i : Int) + d.1
    let b := (j : Int) + d.2
    if 0 ≤ a ∧ a < (m.height : Int) ∧ 0 ≤ b ∧ b < (m.width : Int) then
      some (m.get a.toNat b.toNat)
    else none)

/-- cv2.dilate with the 5x5 kernel (one iteration): neighborhood max. -/
def dilateK5 (m : Img) : Img :=
  Img.ofFn m.height m.width (fun i j => (m.neighVals k5 i j).foldl max 0)

/-- cv2.erode with the 5x5 kernel: neighborhood min (255 is the neutral
start value for 8-bit data). -/
def erodeK5 (m : Img) : Img :=
  Img.ofFn m.height m.width (fun i j => (m.neighVals k5 i j).foldl min 255)

/-- cv2.morphologyEx(-, MORPH_CLOSE, kernel): dilate then erode. -/
def morphCloseK5 (m : Img) : Img := erodeK5 (dilateK5 m)

/-- cv2.morphologyEx(-, MORPH_OPEN, kernel): erode then dilate. -/
def morphOpenK5 (m : Img) : Img := dilateK5 (erodeK5 m)

/-! ## ARColorize.detect_wall -/

/-- The dilated Canny edge map computed inside detect_wall:
cv2.dilate(cv2.Canny(gray, 50, 150), kernel, iterations=1). -/
def wall_edges_dilated (frame : CImg) : Img :=
  dilateK5 (canny (grayOf frame) 50 150)

/-- The cleaned brightness mask computed inside detect_wall: threshold at
100, then morphological closing and opening with the 5x5 kernel. -/
def wall_brightness (frame : CImg) : Img :=
  morphOpenK5 (morphCloseK5 (threshold100 (grayOf frame)))

/-- ARColorize.detect_wall: wall_mask = cv2.bitwise_and(brightness_mask,
cv2.bitwise_not(edges_dilated)).  bitwise_not on uint8 is 255 - v, and
bitwise_and is the bitwise conjunction Nat.land. -/
def detect_wall (frame : CImg) : Img :=
  Img.ofFn frame.height frame.width (fun i j =>
    Nat.land ((wall_brightness frame).get i j)
      (255 - (wall_edges_dilated frame).get i j))

/-! ## ARColorize.apply_color_overlay -/

/-- OpenCV cvRound: round an exact rational to the nearest integer, ties
to even. -/
def cvRound (x : ℚ) : ℤ :=
  if x - ⌊x⌋ < 1 / 2 then ⌊x⌋
  else if 1 / 2 < x - ⌊x⌋ then ⌊x⌋ + 1
  else if ⌊x⌋ % 2 = 0 then ⌊x⌋ else ⌊x⌋ + 1

/-- saturate_cast to uint8: clamp an integer into 0..255. -/
def satU8 (z : ℤ) : Nat := (min 255 (max 0 z)).toNat

/-- cv2.addWeighted on one uint8 channel: saturate_cast of the rounded
weighted sum w1 * o + w2 * c (the gamma argument of the source is 0). -/
def addWeighted8 (o : Nat) (w1 : ℚ) (c : Int) (w2 : ℚ) : Nat :=
  satU8 (cvRound (w1 * (o : ℚ) + w2 * (c : ℚ)))

/-- ARColorize.apply_color_overlay: result = frame.copy(); where mask > 0
the pixel is replaced by cv2.addWeighted(frame-pixel, 1 - alpha,
overlay-pixel, alpha, 0), where the overlay pixel at masked positions is
the flat color (the source materializes that overlay with
overlay[mask > 0] = color before blending).  Unmasked pixels keep the
copied frame value; the input frame itself is never written. -/
def apply_color_overlay (frame : CImg) (mask : Img) (color : Int × Int × Int)
    (alpha : ℚ) : CImg :=
  CImg.ofFn frame.height frame.width (fun i j =>
    if 0 < mask.get i j then
      let p := frame.get i j
      (addWeighted8 p.1 (1 - alpha) color.1 alpha,
       addWeighted8 p.2.1 (1 - alpha) color.2.1 alpha,
       addWeighted8 p.2.2 (1 - alpha) color.2.2 alpha)
    else frame.get i j)

/-! ## ARColorize.process_frame -/

/-- Boundary pixels of the nonzero region of a mask: a nonzero pixel with
a background (or out-of-image) 4-neighbor.  This is the set of points
traced by cv2.findContours(mask, RETR_EXTERNAL, CHAIN_APPROX_SIMPLE) on
the region boundaries; the Suzuki-Abe traversal order and the
outer-contour/hole distinction are abstracted into the flat point set,
which is all the drawing step below consumes. -/
def isBoundary (m : Img) (i j : Nat) : Bool :=
  decide (0 < m.get i j) &&
    (i == 0 || j == 0 || i + 1 == m.height || j + 1 == m.width ||
      m.get (i - 1) j == 0 || m.get (i + 1) j == 0 ||
      m.get i (j - 1) == 0 || m.get i (j + 1) == 0)

/-- The contour point set of a mask (empty exactly when the mask has no
boundary pixel, in particular for an all-zero mask). -/
def findContours (m : Img) : List (Nat × Nat) :=
  (List.range m.height).flatMap (fun i =>
    (List.range m.width).filterMap (fun j =>
      if isBoundary m i j then some (i, j) else none))

/-- cv2.drawContours(result, contours, -1, (0, 255, 0), 2): paint every
pixel within the 2-px-wide outline of the contour set green (BGR
(0, 255, 0)); the thick polyline rasterization is modelled as a
Chebyshev-radius-1 brush around each contour point.  Drawing an empty
contour list leaves the image unchanged. -/
def drawContours (img : CImg) (pts : List (Nat × Nat)) : CImg :=
  CImg.ofFn img.height img.width (fun i j =>
    if pts.any (fun p => p.1 ≤ i + 1 && i ≤ p.1 + 1 && p.2 ≤ j + 1 && j ≤ p.2 + 1)
      then (0, 255, 0)
      else img.get i j)

/-- ARColorize.process_frame: segment, blend at default alpha 0.7, then
overlay the contour outline of the detected region. -/
def process_frame (st : ARColorize) (frame : CImg) : CImg :=
  let wall_mask := detect_wall frame
  let result := apply_color_overlay frame wall_mask st.selected_color (mkRat 7 10)
  drawContours result (findContours wall_mask)

/-! ## Concrete inputs used by witnesses and counterexamples -/

/-- The all-black 4x4 frame of the spec's edge-case scenario. -/
def black4 : CImg := ⟨List.replicate 4 (List.replicate 4 (0, 0, 0))⟩

/-- A 4x4 frame whose left half is black and right half white: it
contains a strong vertical luminance step, so Canny fires on it. -/
def half4 : CImg :=
  ⟨List.replicate 4 [(0, 0, 0), (0, 0, 0), (255, 255, 255), (255, 255, 255)]⟩

/-- A 1x1 frame with a single mid-gray pixel. -/
def gray1 : CImg := ⟨[[(100, 100, 100)]]⟩

/-- A 1x1 all-set mask. -/
def mask1 : Img := ⟨[[255]]⟩

/-- A 1x2 frame used by the unmasked-identity witness. -/
def duo12 : CImg := ⟨[[(1, 2, 3), (4, 5, 6)]]⟩

/-- A 1x2 mask that selects only the first pixel. -/
def mask12 : Img := ⟨[[255, 0]]⟩

/-! ## Helper lemmas: list and image access -/

theorem getD_map_range {α : Type} (n : Nat) (g : Nat → α) (i : Nat) (d : α) :
    (((List.range n).map g).getD i d) = if i < n then g i else d := by
  rcases Nat.lt_or_ge i n with hi | hi
  · rw [List.getD_eq_getElem?_getD, List.getElem?_map, List.getElem?_range hi]
    simp [hi]
  · rw [List.getD_eq_getElem?_getD, List.getElem?_eq_none (by simpa using hi)]
    simp [Nat.le_lt_asymm hi]

theorem Img.get_ofFn (h w : Nat) (f : Nat → Nat → Nat) (i j : Nat) :
    (Img.ofFn h w f).get i j = if i < h ∧ j < w then f i j else 0 := by
  simp only [Img.ofFn, Img.get, getD_map_range]
  by_cases hi : i < h
  · simp only [if_pos hi, getD_map_range]
    by_cases hj : j < w
    · simp [hi, hj]
    · simp [hi, hj]
  · simp [hi]

theorem cimg_get_ofFn (h w : Nat) (f : Nat → Nat → Nat × Nat × Nat) (i j : Nat) :
    (CImg.ofFn h w f).get i j = if i < h ∧ j < w then f i j else (0, 0, 0) := by
  simp only [CImg.ofFn, CImg.get, getD_map_range]
  by_cases hi : i < h
  · simp only [if_pos hi, getD_map_range]
    by_cases hj : j < w
    · simp [hi, hj]
    · simp [hi, hj]
  · simp [hi]

theorem Img.height_ofFn (h w : Nat) (f : Nat → Nat → Nat) :
    (Img.ofFn h w f).height = h := by
  simp [Img.ofFn, Img.height]

theorem Img.width_ofFn (h w : Nat) (f : Nat → Nat → Nat) :
    (Img.ofFn h w f).width = if h = 0 then 0 else w := by
  unfold Img.ofFn Img.width
  rcases h with _ | h
  · simp
  · simp [List.range_succ_eq_map]

theorem cimg_height_ofFn (h w : Nat) (f : Nat → Nat → Nat × Nat × Nat) :
    (CImg.ofFn h w f).height = h := by
  simp [CImg.ofFn, CImg.height]

theorem cimg_width_ofFn (h w : Nat) (f : Nat → Nat → Nat × Nat × Nat) :
    (CImg.ofFn h w f).width = if h = 0 then 0 else w := by
  unfold CImg.ofFn CImg.width
  rcases h with _ | h
  · simp
  · simp [List.range_succ_eq_map]

theorem Img.width_eq_zero (m : Img) (h : m.height = 0) : m.width = 0 := by
  unfold Img.height at h
  rw [List.length_eq_zero] at h
  simp [Img.width, h]

theorem cimg_width_eq_zero (f : CImg) (h : f.height = 0) : f.width = 0 := by
  unfold CImg.height at h
  rw [List.length_eq_zero] at h
  simp [CImg.width, h]

/-! ## Helper lemmas: hex parsing -/

theorem char_eq_of_toNat {c d : Char} (h : c.toNat = d.toNat) : c = d :=
  Char.eq_of_val_eq (UInt32.ext h)

theorem char_toNat_ofNat (n : Nat) (h : n < 55296) : (Char.ofNat n).toNat = n := by
  simp [Char.ofNat, Char.ofNatAux, Nat.isValidChar, h, Char.toNat]
  simp [UInt32.toNat, UInt32.ofNatCore, BitVec.toNat_ofNatLt]

theorem hexValN_some {n v : Nat} (h : hexValN n = some v) :
    (48 ≤ n ∧ n ≤ 57 ∧ v = n - 48) ∨ (97 ≤ n ∧ n ≤ 102 ∧ v = n - 87) ∨
      (65 ≤ n ∧ n ≤ 70 ∧ v = n - 55) := by
  unfold hexValN at h
  split_ifs at h with h1 h2 h3 <;> simp_all

theorem hexVal_facts {c : Char} {u : Nat} (h : hexVal c = some u) :
    (48 ≤ c.toNat ∧ c.toNat ≤ 57 ∧ u = c.toNat - 48) ∨
      (97 ≤ c.toNat ∧ c.toNat ≤ 102 ∧ u = c.toNat - 87) ∨
      (65 ≤ c.toNat ∧ c.toNat ≤ 70 ∧ u = c.toNat - 55) :=
  hexValN_some h

theorem isPySpace_false {c : Char} {u : Nat} (h : hexVal c = some u) :
    isPySpace c = false := by
  rcases hexVal_facts h with ⟨h1, h2, _⟩ | ⟨h1, h2, _⟩ | ⟨h1, h2, _⟩ <;>
    · simp [isPySpace]
      omega

theorem pyIntBase16_pair {c d : Char} {u v : Nat}
    (hc : hexVal c = some u) (hd : hexVal d = some v) :
    pyIntBase16 [c, d] = some ((16 * u + v : Nat) : Int) := by
  have hcs := isPySpace_false hc
  have hds := isPySpace_false hd
  have hcf := hexVal_facts hc
  have hdf := hexVal_facts hd
  have hd95 : d.toNat ≠ 95 := by omega
  have hc43 : c.toNat ≠ 43 := by omega
  have hc45 : c.toNat ≠ 45 := by omega
  have hdpre : ¬ (c.toNat = 48 ∧ (d.toNat = 120 ∨ d.toNat = 88)) := by omega
  unfold pyIntBase16 pyStripWs
  simp only [List.dropWhile_cons, hcs, hds, Bool.false_eq_true, if_false,
    List.dropWhile_nil, List.reverse_cons, List.reverse_nil, List.nil_append,
    List.cons_append, List.singleton_append]
  unfold pySign
  simp only [hc43, hc45, if_false]
  unfold pyStrip0x
  simp only [hdpre, if_false]
  unfold pyDigits pyDigitsGo
  simp only [hc, hd, hd95, if_false]
  simp [pyDigitsGo]

theorem hashStrip_cons {c : Char} {u : Nat} (rest : List Char)
    (h : hexVal c = some u) : hashStrip (c :: rest) = c :: rest := by
  have := hexVal_facts h
  have h35 : ¬ (c.toNat = 35) := by omega
  simp [hashStrip, List.dropWhile_cons, h35]

theorem hashStrip_hash (rest : List Char) :
    hashStrip ('#' :: rest) = hashStrip rest := rfl

theorem hexVal_lt16 {c : Char} {u : Nat} (h : hexVal c = some u) : u < 16 := by
  rcases hexVal_facts h with ⟨h1, h2, h3⟩ | ⟨h1, h2, h3⟩ | ⟨h1, h2, h3⟩ <;> omega

theorem hexDigit_upChar {c : Char} {u : Nat} (h : hexVal c = some u) :
    hexDigit u = upChar c := by
  rcases hexVal_facts h with ⟨h1, h2, h3⟩ | ⟨h1, h2, h3⟩ | ⟨h1, h2, h3⟩
  · have hu : u < 10 := by omega
    have hup : ¬ (97 ≤ c.toNat ∧ c.toNat ≤ 122) := by omega
    apply char_eq_of_toNat
    rw [hexDigit, if_pos hu, upChar, if_neg hup,
      char_toNat_ofNat (48 + u) (by omega)]
    omega
  · have hu : ¬ (u < 10) := by omega
    have hup : 97 ≤ c.toNat ∧ c.toNat ≤ 122 := by omega
    rw [hexDigit, if_neg hu, upChar, if_pos hup]
    congr 1
    omega
  · have hu : ¬ (u < 10) := by omega
    have hup : ¬ (97 ≤ c.toNat ∧ c.toNat ≤ 122) := by omega
    apply char_eq_of_toNat
    rw [hexDigit, if_neg hu, upChar, if_neg hup,
      char_toNat_ofNat (55 + u) (by omega)]
    omega

theorem hexPair_pair {c d : Char} {u v : Nat}
    (hc : hexVal c = some u) (hd : hexVal d = some v) :
    hexPair ((16 * u + v : Nat) : Int) = [upChar c, upChar d] := by
  have h1 := hexVal_lt16 hc
  have h2 := hexVal_lt16 hd
  unfold hexPair
  rw [← hexDigit_upChar hc, ← hexDigit_upChar hd]
  have ht : ((16 * u + v : Nat) : Int).toNat = 16 * u + v := by omega
  rw [ht]
  have hdiv : (16 * u + v) % 256 / 16 = u := by omega
  have hmod : (16 * u + v) % 16 = v := by omega
  rw [hdiv, hmod]

theorem pySlice_take6 (l : List Char) (a b : Nat) (hb : b ≤ 6) :
    pySlice l a b = pySlice (l.take 6) a b := by
  unfold pySlice
  rw [List.take_take, Nat.min_eq_left hb]

/-! ## Claim C5: hex round trip -/

/-- Claim C5 (confirmed): for every valid 6-hex-digit color string, with
or without a single leading # and in either letter case, hex_to_bgr
parses it to a channel triple and the (spec-modelled) triple-to-hex
conversion maps that triple back to the same 6 digits, up to uppercasing:
the round trip is exact and lossless on the whole 24-bit color space. -/
theorem hex_roundtrip (h core : List Char)
    (hform : h = core ∨ h = '#' :: core)
    (hlen : core.length = 6)
    (hhex : ∀ c ∈ core, (hexVal c).isSome) :
    ∃ t, hex_to_bgr h = some t ∧ bgr_to_hex t = core.map upChar := by
  rcases core with _ | ⟨c1, _ | ⟨c2, _ | ⟨c3, _ | ⟨c4, _ | ⟨c5, _ | ⟨c6, tl⟩⟩⟩⟩⟩⟩ <;>
    simp only [List.length_cons, List.length_nil] at hlen
  · omega
  · omega
  · omega
  · omega
  · omega
  · omega
  · have htl : tl = [] := List.length_eq_zero.mp (by omega : tl.length = 0)
    subst htl
    obtain ⟨u1, hu1⟩ := Option.isSome_iff_exists.mp (hhex c1 (by simp))
    obtain ⟨u2, hu2⟩ := Option.isSome_iff_exists.mp (hhex c2 (by simp))
    obtain ⟨u3, hu3⟩ := Option.isSome_iff_exists.mp (hhex c3 (by simp))
    obtain ⟨u4, hu4⟩ := Option.isSome_iff_exists.mp (hhex c4 (by simp))
    obtain ⟨u5, hu5⟩ := Option.isSome_iff_exists.mp (hhex c5 (by simp))
    obtain ⟨u6, hu6⟩ := Option.isSome_iff_exists.mp (hhex c6 (by simp))
    have hstrip : hashStrip h = [c1, c2, c3, c4, c5, c6] := by
      rcases hform with hf | hf <;> subst hf
      · exact hashStrip_cons _ hu1
      · rw [hashStrip_hash]
        exact hashStrip_cons _ hu1
    have hs1 : pySlice (hashStrip h) 0 2 = [c1, c2] := by
      rw [hstrip]
      rfl
    have hs2 : pySlice (hashStrip h) 2 4 = [c3, c4] := by
      rw [hstrip]
      rfl
    have hs3 : pySlice (hashStrip h) 4 6 = [c5, c6] := by
      rw [hstrip]
      rfl
    refine ⟨((16 * u5 + u6 : Nat), (16 * u3 + u4 : Nat), (16 * u1 + u2 : Nat)),
      ?_, ?_⟩
    · simp only [hex_to_bgr]
      rw [hs1, hs2, hs3, pyIntBase16_pair hu1 hu2, pyIntBase16_pair hu3 hu4,
        pyIntBase16_pair hu5 hu6]
    · simp only [bgr_to_hex]
      rw [hexPair_pair hu1 hu2, hexPair_pair hu3 hu4, hexPair_pair hu5 hu6]
      simp

/-- Witness for C5: the round trip at the concrete coral color #FF7f50. -/
theorem hex_roundtrip_witness :
    ("#FF7f50".data = '#' :: "FF7f50".data) ∧
    "FF7f50".data.length = 6 ∧ (∀ c ∈ "FF7f50".data, (hexVal c).isSome) ∧
    ∃ t, hex_to_bgr "#FF7f50".data = some t ∧
      bgr_to_hex t = "FF7f50".data.map upChar :=
  ⟨by decide, by decide, by decide,
    hex_roundtrip ("#FF7f50".data) ("FF7f50".data) (Or.inr (by decide))
      (by decide) (by decide)⟩

/-! ## Claim C6: set_color failure condition -/

/-- Claim C6 counterexample: the string AABBCCDD is not exactly 6 hex
digits after stripping an optional leading #, yet set_color returns
normally instead of failing, refuting the only-if direction of the
claim. -/
theorem set_color_cex :
    sixHexAfterHash "AABBCCDD".data = false ∧
    (set_color ARColorize.init "AABBCCDD".data).2 = true := by decide

/-- Claim C6 (corrected): set_color fails exactly when one of the three
2-character slices taken at positions 0..5 of its argument, after
stripping every leading # character, fails to parse as a base-16 integer
(so the check is not "exactly 6 hex digits": longer strings with a valid
6-character prefix succeed); the failure is the ValueError raised by
int(), not a dedicated InvalidColorFormat error; on failure the
previously selected color is left unchanged. -/
theorem set_color_slices (st : ARColorize) (s : List Char) :
    ((set_color st s).2 = false ↔
      (pyIntBase16 (pySlice (hashStrip s) 0 2) = none ∨
       pyIntBase16 (pySlice (hashStrip s) 2 4) = none ∨
       pyIntBase16 (pySlice (hashStrip s) 4 6) = none)) ∧
    ((set_color st s).2 = false → (set_color st s).1 = st) := by
  simp only [set_color, hex_to_bgr]
  rcases h1 : pyIntBase16 (pySlice (hashStrip s) 0 2) with _ | r <;>
    rcases h2 : pyIntBase16 (pySlice (hashStrip s) 2 4) with _ | g <;>
      rcases h3 : pyIntBase16 (pySlice (hashStrip s) 4 6) with _ | b <;>
        simp

/-- Witness for C6: the amended characterization instantiated at the
malformed input ZZZZZZ from the spec's scenario. -/
theorem set_color_slices_witness :
    ((set_color ARColorize.init "ZZZZZZ".data).2 = false ↔
      (pyIntBase16 (pySlice (hashStrip "ZZZZZZ".data) 0 2) = none ∨
       pyIntBase16 (pySlice (hashStrip "ZZZZZZ".data) 2 4) = none ∨
       pyIntBase16 (pySlice (hashStrip "ZZZZZZ".data) 4 6) = none)) ∧
    ((set_color ARColorize.init "ZZZZZZ".data).2 = false →
      (set_color ARColorize.init "ZZZZZZ".data).1 = ARColorize.init) :=
  set_color_slices ARColorize.init ("ZZZZZZ".data)

/-! ## Claim C10: hex parsing reads only the first six characters -/

/-- Claim C10 (confirmed): hex_to_bgr depends only on the first six
characters left after stripping every leading #, and on the concrete
input ##AABBCCZZ - which is not exactly 6 hex digits after one optional
# - set_color succeeds and stores the color parsed from those first six
characters AABBCC. -/
theorem hex_first6 :
    (∀ s t : List Char, (hashStrip s).take 6 = (hashStrip t).take 6 →
        hex_to_bgr s = hex_to_bgr t) ∧
    sixHexAfterHash "##AABBCCZZ".data = false ∧
    set_color ARColorize.init "##AABBCCZZ".data = (⟨(204, 187, 170)⟩, true) ∧
    hex_to_bgr ((hashStrip "##AABBCCZZ".data).take 6) = some (204, 187, 170) := by
  refine ⟨?_, by decide, by decide, by decide⟩
  intro s t hst
  simp only [hex_to_bgr]
  have e : ∀ a b, b ≤ 6 → pySlice (hashStrip s) a b = pySlice (hashStrip t) a b := by
    intro a b hb
    rw [pySlice_take6 _ a b hb, hst, ← pySlice_take6 _ a b hb]
  rw [e 0 2 (by omega), e 2 4 (by omega), e 4 6 (by omega)]

/-- Witness for C10: two strings sharing the 6-character prefix AABBCC
parse to the same color. -/
theorem hex_first6_witness :
    ((hashStrip "AABBCCXY".data).take 6 = (hashStrip "AABBCC".data).take 6) ∧
    hex_to_bgr "AABBCCXY".data = hex_to_bgr "AABBCC".data :=
  ⟨by decide, hex_first6.1 ("AABBCCXY".data) ("AABBCC".data) (by decide)⟩

/-! ## Helper lemmas: rounding and the addWeighted blend -/

theorem cvRound_window (x : ℚ) : ⌊x⌋ ≤ cvRound x ∧ cvRound x ≤ ⌊x⌋ + 1 := by
  unfold cvRound
  split_ifs <;> omega

theorem round_window (x : ℚ) : ⌊x⌋ ≤ round x ∧ round x ≤ ⌊x⌋ + 1 := by
  rw [round_eq]
  constructor
  · exact Int.floor_le_floor (by linarith)
  · rw [← Int.floor_add_one x]
    exact Int.floor_le_floor (by linarith)

theorem cvRound_nonneg (x : ℚ) (h : 0 ≤ x) : 0 ≤ cvRound x := by
  have h1 : (0 : ℤ) ≤ ⌊x⌋ := Int.floor_nonneg.mpr h
  have := cvRound_window x
  omega

theorem cvRound_le255 (x : ℚ) (h : x ≤ 255) : cvRound x ≤ 255 := by
  have hf : ⌊x⌋ ≤ 255 := by
    have := Int.floor_le_floor h
    simpa using this
  unfold cvRound
  split_ifs with h1 h2 h3
  · omega
  · have hlt : (⌊x⌋ : ℚ) ≤ x - 1 / 2 := by
      have := Int.floor_le x
      linarith
    have h5 : (⌊x⌋ : ℚ) < 255 := by linarith
    have h6 : ⌊x⌋ < 255 := by exact_mod_cast h5
    omega
  · omega
  · have hlt : (⌊x⌋ : ℚ) ≤ x - 1 / 2 := by
      have h4 : 1 / 2 ≤ x - ⌊x⌋ := by linarith
      have := Int.floor_le x
      linarith
    have h5 : (⌊x⌋ : ℚ) < 255 := by linarith
    have h6 : ⌊x⌋ < 255 := by exact_mod_cast h5
    omega

theorem satRound_spec (x : ℚ) (h0 : 0 ≤ x) (h255 : x ≤ 255) :
    ((satU8 (cvRound x) : ℤ) - round x).natAbs ≤ 1 ∧ satU8 (cvRound x) ≤ 255 := by
  have hcr0 := cvRound_nonneg x h0
  have hcr255 := cvRound_le255 x h255
  have hwin := cvRound_window x
  have hrwin := round_window x
  have hsat : satU8 (cvRound x) = (cvRound x).toNat := by
    unfold satU8
    congr 1
    omega
  rw [hsat]
  omega

theorem addWeighted8_spec (o : Nat) (c : Int) (a : ℚ)
    (ho : o ≤ 255) (hc0 : 0 ≤ c) (hc : c ≤ 255) (ha0 : 0 ≤ a) (ha1 : a ≤ 1) :
    ((addWeighted8 o (1 - a) c a : ℤ) -
        round ((1 - a) * (o : ℚ) + a * (c : ℚ))).natAbs ≤ 1 ∧
      addWeighted8 o (1 - a) c a ≤ 255 := by
  have hoQ : (o : ℚ) ≤ 255 := by exact_mod_cast ho
  have hcQ : (c : ℚ) ≤ 255 := by exact_mod_cast hc
  have hc0Q : (0 : ℚ) ≤ (c : ℚ) := by exact_mod_cast hc0
  have ho0Q : (0 : ℚ) ≤ (o : ℚ) := Nat.cast_nonneg o
  have h1a : (0 : ℚ) ≤ 1 - a := by linarith
  have hx0 : 0 ≤ (1 - a) * (o : ℚ) + a * (c : ℚ) := by
    have t1 := mul_nonneg h1a ho0Q
    have t2 := mul_nonneg ha0 hc0Q
    linarith
  have hx255 : (1 - a) * (o : ℚ) + a * (c : ℚ) ≤ 255 := by
    have t1 : 0 ≤ (1 - a) * (255 - (o : ℚ)) := mul_nonneg h1a (by linarith)
    have t2 : 0 ≤ a * (255 - (c : ℚ)) := mul_nonneg ha0 (by linarith)
    nlinarith
  have key := satRound_spec ((1 - a) * (o : ℚ) + a * (c : ℚ)) hx0 hx255
  simpa [addWeighted8] using key

theorem satU8_le255 (z : ℤ) : satU8 z ≤ 255 := by
  unfold satU8
  omega

theorem apply_get_masked (frame : CImg) (mask : Img) (color : Int × Int × Int)
    (alpha : ℚ) (i j : Nat) (hi : i < frame.height) (hj : j < frame.width)
    (hm : 0 < mask.get i j) :
    (apply_color_overlay frame mask color alpha).get i j =
      (addWeighted8 (frame.get i j).1 (1 - alpha) color.1 alpha,
       addWeighted8 (frame.get i j).2.1 (1 - alpha) color.2.1 alpha,
       addWeighted8 (frame.get i j).2.2 (1 - alpha) color.2.2 alpha) := by
  unfold apply_color_overlay
  rw [cimg_get_ofFn, if_pos ⟨hi, hj⟩, if_pos hm]

/-! ## Claim C1: blend linearity of the compositor -/

/-- Claim C1 (confirmed): for every frame, mask, in-range color and alpha
in [0, 1], every masked pixel of the output of apply_color_overlay
equals, per channel, the rounding of (1 - alpha) * original +
alpha * color within a tolerance of one, and every result channel fits
in 8 bits.  (The floating-point arithmetic of the source is embedded as
exact rational arithmetic with round-half-to-even; the claim's own
tolerance of plus or minus 1 absorbs the choice of nearest rounding.) -/
theorem blend_linearity (frame : CImg) (mask : Img) (color : Int × Int × Int)
    (alpha : ℚ) (i j : Nat)
    (hi : i < frame.height) (hj : j < frame.width) (hm : 0 < mask.get i j)
    (ha0 : 0 ≤ alpha) (ha1 : alpha ≤ 1)
    (hf1 : (frame.get i j).1 ≤ 255) (hf2 : (frame.get i j).2.1 ≤ 255)
    (hf3 : (frame.get i j).2.2 ≤ 255)
    (hc1 : 0 ≤ color.1 ∧ color.1 ≤ 255)
    (hc2 : 0 ≤ color.2.1 ∧ color.2.1 ≤ 255)
    (hc3 : 0 ≤ color.2.2 ∧ color.2.2 ≤ 255) :
    (((((apply_color_overlay frame mask color alpha).get i j).1 : ℤ) -
          round ((1 - alpha) * ((frame.get i j).1 : ℚ) +
            alpha * (color.1 : ℚ))).natAbs ≤ 1 ∧
        ((apply_color_overlay frame mask color alpha).get i j).1 ≤ 255) ∧
      (((((apply_color_overlay frame mask color alpha).get i j).2.1 : ℤ) -
          round ((1 - alpha) * ((frame.get i j).2.1 : ℚ) +
            alpha * (color.2.1 : ℚ))).natAbs ≤ 1 ∧
        ((apply_color_overlay frame mask color alpha).get i j).2.1 ≤ 255) ∧
      (((((apply_color_overlay frame mask color alpha).get i j).2.2 : ℤ) -
          round ((1 - alpha) * ((frame.get i j).2.2 : ℚ) +
            alpha * (color.2.2 : ℚ))).natAbs ≤ 1 ∧
        ((apply_color_overlay frame mask color alpha).get i j).2.2 ≤ 255) := by
  rw [apply_get_masked frame mask color alpha i j hi hj hm]
  exact ⟨addWeighted8_spec _ _ _ hf1 hc1.1 hc1.2 ha0 ha1,
    addWeighted8_spec _ _ _ hf2 hc2.1 hc2.2 ha0 ha1,
    addWeighted8_spec _ _ _ hf3 hc3.1 hc3.2 ha0 ha1⟩

/-- Witness for C1: the blue channel at the masked pixel of a concrete
1x1 frame blended with color (10, 20, 30) at alpha one half. -/
theorem blend_linearity_witness :
    ((0 : ℚ) ≤ mkRat 1 2 ∧ mkRat 1 2 ≤ 1 ∧ 0 < mask1.get 0 0 ∧
      (gray1.get 0 0).1 ≤ 255) ∧
    (((((apply_color_overlay gray1 mask1 (10, 20, 30) (mkRat 1 2)).get 0 0).1 : ℤ) -
          round ((1 - mkRat 1 2) * ((gray1.get 0 0).1 : ℚ) +
            mkRat 1 2 * ((10 : ℤ) : ℚ))).natAbs ≤ 1 ∧
        (((apply_color_overlay gray1 mask1 (10, 20, 30) (mkRat 1 2)).get 0 0).1 ≤ 255)) :=
  ⟨⟨by decide, by decide, by decide, by decide⟩,
    (blend_linearity gray1 mask1 (10, 20, 30) (mkRat 1 2) 0 0 (by decide)
      (by decide) (by decide) (by decide) (by decide) (by decide) (by decide)
      (by decide) (by decide) (by decide) (by decide)).1⟩

/-! ## Claim C2: unmasked pixels are untouched -/

/-- Claim C2 (confirmed): for every frame, mask, color and alpha, every
pixel where the mask is zero is bit-identical between the input frame
and the output of apply_color_overlay.  The source builds the output as
frame.copy() and writes only its masked positions, never the input
frame; accordingly the embedding is a pure function producing an
independent buffer, so the input is left unmodified by construction. -/
theorem unmasked_identity (frame : CImg) (mask : Img) (color : Int × Int × Int)
    (alpha : ℚ) (i j : Nat) (hi : i < frame.height) (hj : j < frame.width)
    (hm : mask.get i j = 0) :
    (apply_color_overlay frame mask color alpha).get i j = frame.get i j := by
  unfold apply_color_overlay
  rw [cimg_get_ofFn, if_pos ⟨hi, hj⟩, if_neg (by omega)]

/-- Witness for C2: the unselected pixel of a concrete 1x2 frame is
returned unchanged. -/
theorem unmasked_identity_witness :
    (mask12.get 0 1 = 0) ∧
    (apply_color_overlay duo12 mask12 (9, 8, 7) (mkRat 7 10)).get 0 1 =
      duo12.get 0 1 :=
  ⟨by decide, unmasked_identity duo12 mask12 (9, 8, 7) (mkRat 7 10) 0 1
    (by decide) (by decide) (by decide)⟩

/-! ## Claim C7: alpha is never validated -/

/-- Claim C7 counterexample: calling apply_color_overlay with alpha = 3/2,
outside [0, 1], does not fail with InvalidParameter or any other error -
the source contains no alpha check at all - and instead returns the
weighted blend saturated into the 8-bit range: at a masked mid-gray pixel
with white paint the channel value (1 - 3/2) * 100 + (3/2) * 255 = 332.5
is clamped to 255. -/
theorem alpha_cex :
    ((1 : ℚ) < 3 / 2) ∧
    (apply_color_overlay gray1 mask1 (255, 255, 255) (3 / 2)).get 0 0 =
      (255, 255, 255) := by
  refine ⟨by norm_num, ?_⟩
  rw [apply_get_masked gray1 mask1 (255, 255, 255) (3 / 2) 0 0 (by decide)
    (by decide) (by decide)]
  have hg : gray1.get 0 0 = (100, 100, 100) := by decide
  rw [hg]
  have harg : (1 - (3 : ℚ) / 2) * ((100 : Nat) : ℚ) + (3 / 2) * (((255 : Int) : ℚ)) =
      665 / 2 := by
    norm_num
  have hfl : ⌊(665 / 2 : ℚ)⌋ = 332 := by
    rw [Int.floor_eq_iff]
    constructor <;> norm_num
  have hcv : cvRound (665 / 2) = 332 := by
    unfold cvRound
    rw [hfl]
    norm_num
  have haw : addWeighted8 100 (1 - 3 / 2) 255 (3 / 2) = 255 := by
    unfold addWeighted8
    rw [harg, hcv]
    decide
  rw [haw]

/-- Claim C7 (corrected): apply_color_overlay performs no validation of
alpha: for every alpha, in or out of [0, 1], the call returns normally,
every masked pixel is the addWeighted blend computed with that alpha
as-is (alpha itself is never clamped), and each output channel is
saturated into the 8-bit range 0..255. -/
theorem alpha_unchecked (frame : CImg) (mask : Img) (color : Int × Int × Int)
    (alpha : ℚ) (i j : Nat) (hi : i < frame.height) (hj : j < frame.width)
    (hm : 0 < mask.get i j) :
    (apply_color_overlay frame mask color alpha).get i j =
      (addWeighted8 (frame.get i j).1 (1 - alpha) color.1 alpha,
       addWeighted8 (frame.get i j).2.1 (1 - alpha) color.2.1 alpha,
       addWeighted8 (frame.get i j).2.2 (1 - alpha) color.2.2 alpha) ∧
    ((apply_color_overlay frame mask color alpha).get i j).1 ≤ 255 ∧
    ((apply_color_overlay frame mask color alpha).get i j).2.1 ≤ 255 ∧
    ((apply_color_overlay frame mask color alpha).get i j).2.2 ≤ 255 := by
  have h := apply_get_masked frame mask color alpha i j hi hj hm
  refine ⟨h, ?_, ?_, ?_⟩ <;> rw [h] <;> exact satU8_le255 _

/-- Witness for C7: the amended no-validation guarantee instantiated at
the out-of-range alpha 3/2 on a concrete masked pixel. -/
theorem alpha_unchecked_witness :
    (0 < mask1.get 0 0) ∧
    ((apply_color_overlay gray1 mask1 (1, 2, 3) (mkRat 3 2)).get 0 0 =
      (addWeighted8 (gray1.get 0 0).1 (1 - mkRat 3 2) 1 (mkRat 3 2),
       addWeighted8 (gray1.get 0 0).2.1 (1 - mkRat 3 2) 2 (mkRat 3 2),
       addWeighted8 (gray1.get 0 0).2.2 (1 - mkRat 3 2) 3 (mkRat 3 2)) ∧
     ((apply_color_overlay gray1 mask1 (1, 2, 3) (mkRat 3 2)).get 0 0).1 ≤ 255 ∧
     ((apply_color_overlay gray1 mask1 (1, 2, 3) (mkRat 3 2)).get 0 0).2.1 ≤ 255 ∧
     ((apply_color_overlay gray1 mask1 (1, 2, 3) (mkRat 3 2)).get 0 0).2.2 ≤ 255) :=
  ⟨by decide, alpha_unchecked gray1 mask1 (1, 2, 3) (mkRat 3 2) 0 0
    (by decide) (by decide) (by decide)⟩

/-! ## Helper lemmas: value sets of the segmentation pipeline -/

theorem foldl_max_01 (l : List Nat) (acc : Nat) (hacc : acc = 0 ∨ acc = 255)
    (hl : ∀ x ∈ l, x = 0 ∨ x = 255) :
    l.foldl max acc = 0 ∨ l.foldl max acc = 255 := by
  induction l generalizing acc with
  | nil => exact hacc
  | cons a t ih =>
    refine ih (max acc a) ?_ (fun x hx => hl x (by simp [hx]))
    rcases hacc with h | h <;> rcases hl a (by simp) with h2 | h2 <;>
      simp [h, h2]

theorem foldl_min_01 (l : List Nat) (acc : Nat) (hacc : acc = 0 ∨ acc = 255)
    (hl : ∀ x ∈ l, x = 0 ∨ x = 255) :
    l.foldl min acc = 0 ∨ l.foldl min acc = 255 := by
  induction l generalizing acc with
  | nil => exact hacc
  | cons a t ih =>
    refine ih (min acc a) ?_ (fun x hx => hl x (by simp [hx]))
    rcases hacc with h | h <;> rcases hl a (by simp) with h2 | h2 <;>
      simp [h, h2]

theorem neighVals_mem (m : Img) (off : List (Int × Int)) (i j : Nat) (x : Nat)
    (hx : x ∈ m.neighVals off i j) : ∃ a b, x = m.get a b := by
  unfold Img.neighVals at hx
  rw [List.mem_filterMap] at hx
  obtain ⟨d, _, hd⟩ := hx
  simp only at hd
  split_ifs at hd with h
  · exact ⟨_, _, (Option.some_inj.mp hd).symm⟩

theorem dilate_01 (m : Img) (hm : ∀ a b, m.get a b = 0 ∨ m.get a b = 255) :
    ∀ i j, (dilateK5 m).get i j = 0 ∨ (dilateK5 m).get i j = 255 := by
  intro i j
  unfold dilateK5
  rw [Img.get_ofFn]
  split_ifs with h
  · refine foldl_max_01 _ _ (Or.inl rfl) (fun x hx => ?_)
    obtain ⟨a, b, rfl⟩ := neighVals_mem m k5 i j x hx
    exact hm a b
  · exact Or.inl rfl

theorem erode_01 (m : Img) (hm : ∀ a b, m.get a b = 0 ∨ m.get a b = 255) :
    ∀ i j, (erodeK5 m).get i j = 0 ∨ (erodeK5 m).get i j = 255 := by
  intro i j
  unfold erodeK5
  rw [Img.get_ofFn]
  split_ifs with h
  · refine foldl_min_01 _ _ (Or.inr rfl) (fun x hx => ?_)
    obtain ⟨a, b, rfl⟩ := neighVals_mem m k5 i j x hx
    exact hm a b
  · exact Or.inl rfl

theorem canny_01 (g : Img) (low high : Nat) :
    ∀ i j, (canny g low high).get i j = 0 ∨ (canny g low high).get i j = 255 := by
  intro i j
  simp only [canny]
  rw [Img.get_ofFn]
  split_ifs <;> simp

theorem threshold_01 (g : Img) :
    ∀ i j, (threshold100 g).get i j = 0 ∨ (threshold100 g).get i j = 255 := by
  intro i j
  unfold threshold100
  rw [Img.get_ofFn]
  split_ifs <;> simp

theorem brightness_01 (frame : CImg) :
    ∀ i j, (wall_brightness frame).get i j = 0 ∨
      (wall_brightness frame).get i j = 255 := by
  unfold wall_brightness morphOpenK5 morphCloseK5
  exact dilate_01 _ (erode_01 _ (erode_01 _ (dilate_01 _ (threshold_01 _))))

theorem edges_01 (frame : CImg) :
    ∀ i j, (wall_edges_dilated frame).get i j = 0 ∨
      (wall_edges_dilated frame).get i j = 255 := by
  unfold wall_edges_dilated
  exact dilate_01 _ (canny_01 _ _ _)

/-! ## Claim C3: edge pixels are excluded from the wall mask -/

/-- Claim C3 (confirmed): for every input frame, no pixel set in the
one-iteration-dilated Canny edge map computed inside detect_wall is set
in the returned wall mask - the mask is the bitwise AND of the
brightness mask with the complement of that edge map, whose pixels are
all 0 or 255. -/
theorem edge_exclusion (frame : CImg) (i j : Nat)
    (h : (wall_edges_dilated frame).get i j ≠ 0) :
    (detect_wall frame).get i j = 0 := by
  unfold detect_wall
  rw [Img.get_ofFn]
  split_ifs with hin
  · rcases edges_01 frame i j with he | he
    · exact absurd he h
    · rcases brightness_01 frame i j with hb | hb <;> rw [he, hb] <;> decide
  · rfl

set_option maxRecDepth 40000 in
/-- Witness for C3: on the half-black half-white 4x4 frame the Canny
edge column dilates over the whole raster, and the wall mask is zero
there. -/
theorem edge_exclusion_witness :
    ((wall_edges_dilated half4).get 0 0 ≠ 0) ∧ (detect_wall half4).get 0 0 = 0 :=
  ⟨by decide, edge_exclusion half4 0 0 (by decide)⟩

/-! ## Claim C4: the wall mask is 0/255-valued -/

set_option maxRecDepth 40000 in
/-- Claim C4 counterexample: on the all-black 4x4 frame the mask returned
by detect_wall is entirely zero, so its list of distinct values is just
the single value 0 - it does not contain "exactly two distinct values"
as the claim states. -/
theorem mask_binary_cex :
    ((detect_wall black4).rows.flatten).dedup = [0] := by decide

/-- Claim C4 (corrected): every pixel of the mask returned by detect_wall
is one of the two sentinel values 0 ("not-surface") and 255 ("surface");
no other value occurs.  (A given mask need not contain both sentinels:
the all-black frame yields an all-zero mask.) -/
theorem mask_binary (frame : CImg) (i j : Nat) :
    (detect_wall frame).get i j = 0 ∨ (detect_wall frame).get i j = 255 := by
  unfold detect_wall
  rw [Img.get_ofFn]
  split_ifs with hin
  · rcases edges_01 frame i j with he | he <;>
      rcases brightness_01 frame i j with hb | hb <;> rw [he, hb] <;> decide
  · exact Or.inl rfl

/-! ## Claim C8: dimension preservation -/

theorem Img.ofFn_dims_c (fr : CImg) (f : Nat → Nat → Nat) :
    (Img.ofFn fr.height fr.width f).height = fr.height ∧
      (Img.ofFn fr.height fr.width f).width = fr.width := by
  refine ⟨Img.height_ofFn _ _ _, ?_⟩
  rw [Img.width_ofFn]
  split_ifs with h
  · rw [cimg_width_eq_zero fr h]
  · rfl

theorem cimg_ofFn_dims_c (fr : CImg) (f : Nat → Nat → Nat × Nat × Nat) :
    (CImg.ofFn fr.height fr.width f).height = fr.height ∧
      (CImg.ofFn fr.height fr.width f).width = fr.width := by
  refine ⟨cimg_height_ofFn _ _ _, ?_⟩
  rw [cimg_width_ofFn]
  split_ifs with h
  · rw [cimg_width_eq_zero fr h]
  · rfl

theorem apply_dims (frame : CImg) (mask : Img) (color : Int × Int × Int)
    (alpha : ℚ) :
    (apply_color_overlay frame mask color alpha).height = frame.height ∧
      (apply_color_overlay frame mask color alpha).width = frame.width := by
  unfold apply_color_overlay
  exact cimg_ofFn_dims_c frame _

theorem drawContours_dims (img : CImg) (pts : List (Nat × Nat)) :
    (drawContours img pts).height = img.height ∧
      (drawContours img pts).width = img.width := by
  unfold drawContours
  exact cimg_ofFn_dims_c img _

/-- Claim C8 (confirmed): detect_wall returns a mask with the width and
height of its input frame, and apply_color_overlay and process_frame
return frames with the width and height of their input frame. -/
theorem dims_preserved :
    (∀ frame : CImg, (detect_wall frame).height = frame.height ∧
      (detect_wall frame).width = frame.width) ∧
    (∀ (frame : CImg) (mask : Img) (color : Int × Int × Int) (alpha : ℚ),
      (apply_color_overlay frame mask color alpha).height = frame.height ∧
      (apply_color_overlay frame mask color alpha).width = frame.width) ∧
    (∀ (st : ARColorize) (frame : CImg),
      (process_frame st frame).height = frame.height ∧
      (process_frame st frame).width = frame.width) := by
  refine ⟨fun frame => ?_, fun frame mask color alpha => ?_, fun st frame => ?_⟩
  · unfold detect_wall
    exact Img.ofFn_dims_c frame _
  · exact apply_dims frame mask color alpha
  · simp only [process_frame]
    have hd := drawContours_dims
      (apply_color_overlay frame (detect_wall frame) st.selected_color (mkRat 7 10))
      (findContours (detect_wall frame))
    have ha := apply_dims frame (detect_wall frame) st.selected_color (mkRat 7 10)
    exact ⟨hd.1.trans ha.1, hd.2.trans ha.2⟩

/-! ## Claim C9: the all-black frame is a fixed point -/

set_option maxRecDepth 100000 in
/-- Claim C9 (confirmed): on the all-black 4x4 frame detect_wall returns
the all-zero ("no wall anywhere") mask, and process_frame returns a
frame bit-identical to the input: no pixel is blended and no contour
outline is drawn. -/
theorem black_frame_identity :
    (detect_wall black4).rows = List.replicate 4 (List.replicate 4 0) ∧
    (process_frame ARColorize.init black4).rows = black4.rows := by decide
